import Mathlib

/-!
Verification of the `AssetPrices` pricing engine (quantecon/asset_pricing.py).

The engine holds a discount factor `beta`, a transition matrix `P` over `n`
Markov states, a vector `s` of per-state growth multipliers and a
risk-aversion coefficient `gamma`.  It exposes three pricing operations:
`tree_price`, `consol_price` and `call_option`.

Shallow embedding: numpy arrays become functions `Fin n → ℝ` and
`Matrix (Fin n) (Fin n) ℝ`; `numpy.linalg.solve` on a nonsingular matrix `A`
becomes `A⁻¹.mulVec b` (Mathlib's matrix inverse agrees with the solver's
result exactly when `A` is invertible, which is the only case in which the
source call returns); the elementwise float power `s**e` becomes real
exponentiation `Real.rpow`; the possibly non-terminating `while` loop of
`call_option` becomes an explicit iterate sequence `wIter` together with a
termination predicate and a classical least stopping time.
-/

open Matrix Finset

/-- The economy parameters stored by `AssetPrices.__init__`:
`self.beta, self.gamma = beta, gamma`; `self.P, self.s = P, s`;
`self.n = P.shape[0]` is the index `n` of the type. -/
structure AssetPrices (n : ℕ) where
  beta : ℝ
  P : Matrix (Fin n) (Fin n) ℝ
  s : Fin n → ℝ
  gamma : ℝ

/-- `P_tilde = P * s**(1-gamma)` from `tree_price`: numpy broadcasting scales
column `j` of `P` by `s[j] ** (1 - gamma)`. -/
noncomputable def P_tilde {n : ℕ} (e : AssetPrices n) : Matrix (Fin n) (Fin n) ℝ :=
  Matrix.of fun i j => e.P i j * e.s j ^ (1 - e.gamma)

/-- `P_check = P * s**(-gamma)` from `consol_price` and `call_option`:
column `j` of `P` is scaled by `s[j] ** (-gamma)`. -/
noncomputable def P_check {n : ℕ} (e : AssetPrices n) : Matrix (Fin n) (Fin n) ℝ :=
  Matrix.of fun i j => e.P i j * e.s j ^ (-e.gamma)

/-- `numpy.linalg.solve(A, b)`: the solution of `A x = b`, i.e. `A⁻¹ b`.
The source raises on a singular `A`; Mathlib's `A⁻¹` is then junk (zero),
a case no claim relies on. -/
noncomputable def npSolve {n : ℕ} (A : Matrix (Fin n) (Fin n) ℝ) (b : Fin n → ℝ) :
    Fin n → ℝ :=
  A⁻¹.mulVec b

/-- `tree_price`: `v = beta * solve(I - beta * P_tilde, P_tilde.dot(O))` with
`I` the identity and `O` the all-ones vector. -/
noncomputable def tree_price {n : ℕ} (e : AssetPrices n) : Fin n → ℝ :=
  e.beta • npSolve (1 - e.beta • P_tilde e) ((P_tilde e).mulVec fun _ => 1)

/-- `consol_price(zeta)`:
`p_bar = beta * solve(I - beta * P_check, P_check.dot(zeta * O))`. -/
noncomputable def consol_price {n : ℕ} (e : AssetPrices n) (zeta : ℝ) : Fin n → ℝ :=
  e.beta • npSolve (1 - e.beta • P_check e) ((P_check e).mulVec fun _ => zeta * 1)

/-- One pass of the `call_option` loop body's update:
`to_stack = (beta * P_check.dot(w_bar), v_bar - p_s)` followed by
`np.amax(np.vstack(to_stack), axis=0)`, i.e. the componentwise maximum of the
discounted continuation value and the exercise value, where
`v_bar = self.consol_price(zeta)`. -/
noncomputable def optionUpdate {n : ℕ} (e : AssetPrices n) (zeta p_s : ℝ)
    (w : Fin n → ℝ) : Fin n → ℝ :=
  fun i => max (e.beta * (P_check e).mulVec w i) (consol_price e zeta i - p_s)

/-- The sequence of loop iterates of `call_option`: `w_bar = np.zeros(n)`
initially, then each loop pass replaces `w_bar` by `w_bar_new`. -/
noncomputable def wIter {n : ℕ} (e : AssetPrices n) (zeta p_s : ℝ) : ℕ → Fin n → ℝ
  | 0 => fun _ => 0
  | t + 1 => optionUpdate e zeta p_s (wIter e zeta p_s t)

/-- `np.amax(np.abs(v))`: the largest absolute value of a component.  The fold
starts from `0`, which agrees with the numpy maximum on every non-empty vector
since all entries `|v i|` are non-negative. -/
def maxAbs {n : ℕ} (v : Fin n → ℝ) : ℝ :=
  ((List.ofFn v).map fun x => |x|).foldr max 0

/-- `error = np.amax(np.abs(w_bar - w_bar_new))` computed by loop pass `t`
(the pass that replaces iterate `t` by iterate `t+1`). -/
noncomputable def errAt {n : ℕ} (e : AssetPrices n) (zeta p_s : ℝ) (t : ℕ) : ℝ :=
  maxAbs fun i => wIter e zeta p_s t i - wIter e zeta p_s (t + 1) i

/-- The `while error > epsilon` loop of `call_option` terminates exactly when
some pass produces `error ≤ epsilon` (the initial `error = epsilon + 1`
guarantees the body runs at least once, for pass index `t = 0`). -/
def Terminates {n : ℕ} (e : AssetPrices n) (zeta p_s epsilon : ℝ) : Prop :=
  ∃ t, errAt e zeta p_s t ≤ epsilon

/-- The index of the final loop pass: the first `t` whose `error ≤ epsilon`.
The loop body executes for pass indices `0, 1, ..., stopTime`, so the number
of iterations performed is `stopTime + 1`. -/
noncomputable def stopTime {n : ℕ} (e : AssetPrices n) (zeta p_s epsilon : ℝ)
    (h : Terminates e zeta p_s epsilon) : ℕ := by
  classical
  exact Nat.find h

/-- The first component of the value returned by `call_option`: the iterate
produced by the final loop pass. -/
noncomputable def call_option_price {n : ℕ} (e : AssetPrices n)
    (zeta p_s epsilon : ℝ) (h : Terminates e zeta p_s epsilon) : Fin n → ℝ :=
  wIter e zeta p_s (stopTime e zeta p_s epsilon h + 1)

/-- The second component of the value returned by `call_option`: the dict
`w_bars`.  Pass `t` stores `w_bars[t] = w_bar` (the iterate before that
pass's update) when `t in T`; passes run for `t = 0, ..., stopTime`.  Keys
are the Python ints of the caller-supplied list `T`, so the map is a partial
function on `ℤ`; a key absent from the dict is `none`. -/
noncomputable def call_option_snaps {n : ℕ} (e : AssetPrices n)
    (zeta p_s : ℝ) (T : List ℤ) (epsilon : ℝ) (h : Terminates e zeta p_s epsilon) :
    ℤ → Option (Fin n → ℝ) := by
  classical
  exact fun k =>
    if k ∈ T ∧ 0 ≤ k ∧ k.toNat ≤ stopTime e zeta p_s epsilon h then
      some (wIter e zeta p_s k.toNat)
    else none

/-- The raw parameters accepted by `AssetPrices.__init__` before any
consistency between `P` (an `n × n` matrix) and `s` (a vector of length `m`,
possibly different from `n`) is known; `nStored` records `self.n = P.shape[0]`. -/
structure AssetPricesRaw (n m : ℕ) where
  beta : ℝ
  P : Matrix (Fin n) (Fin n) ℝ
  s : Fin m → ℝ
  gamma : ℝ
  nStored : ℕ

/-- `AssetPrices.__init__`: stores the four parameters verbatim and sets
`self.n = P.shape[0]`.  The `Option` layer records whether construction raises
(`none`) or returns an initialized object (`some`); the source body is
straight-line field assignment with no validation, so it always returns. -/
def initAP {n m : ℕ} (beta : ℝ) (P : Matrix (Fin n) (Fin n) ℝ) (s : Fin m → ℝ)
    (gamma : ℝ) : Option (AssetPricesRaw n m) :=
  some ⟨beta, P, s, gamma, n⟩

/-- A concrete one-state economy: `beta = 1/2`, `P = [[1]]`, `s = [1]`,
`gamma = 1`. -/
noncomputable def eUnit : AssetPrices 1 :=
  ⟨1 / 2, Matrix.of fun _ _ => 1, fun _ => 1, 1⟩

/-- A concrete one-state economy with `beta = 0`, `P = [[1]]`, `s = [1]`,
`gamma = 0`; every price the engine computes is `0`, so the option loop hits
an exact fixed point on its very first pass. -/
noncomputable def eZero : AssetPrices 1 :=
  ⟨0, Matrix.of fun _ _ => 1, fun _ => 1, 0⟩

/-- A concrete one-state economy with a valid stochastic matrix but an
expansive growth-adjusted kernel: `beta = 1/2`, `P = [[1]]`, `s = [4]`,
`gamma = 0`, hence `beta * P_tilde = [[2]]`. -/
noncomputable def eNeg : AssetPrices 1 :=
  ⟨1 / 2, Matrix.of fun _ _ => 1, fun _ => 4, 0⟩

/-- Folding `max` from `0` bounds every list element from above. -/
theorem le_foldr_max (l : List ℝ) (x : ℝ) (hx : x ∈ l) : x ≤ l.foldr max 0 := by
  induction l with
  | nil => cases hx
  | cons a l ih =>
    rcases List.mem_cons.mp hx with h | h
    · exact h ▸ le_max_left a (l.foldr max 0)
    · exact le_trans (ih h) (le_max_right a (l.foldr max 0))

/-- Folding `max` from `0` is non-negative. -/
theorem foldr_max_nonneg (l : List ℝ) : 0 ≤ l.foldr max 0 := by
  induction l with
  | nil => exact le_refl 0
  | cons a l ih => exact le_trans ih (le_max_right a (l.foldr max 0))

/-- Folding `max` from `0` stays below any non-negative upper bound of the
list elements. -/
theorem foldr_max_le (l : List ℝ) (c : ℝ) (hc : 0 ≤ c)
    (h : ∀ x ∈ l, x ≤ c) : l.foldr max 0 ≤ c := by
  induction l with
  | nil => exact hc
  | cons a l ih =>
    exact max_le (h a (List.mem_cons_self a l))
      (ih fun x hx => h x (List.mem_cons_of_mem a hx))

/-- `maxAbs` is non-negative (a maximum of absolute values started at `0`). -/
theorem maxAbs_nonneg {n : ℕ} (v : Fin n → ℝ) : 0 ≤ maxAbs v :=
  foldr_max_nonneg _

/-- Every component's absolute value is bounded by `maxAbs`. -/
theorem abs_le_maxAbs {n : ℕ} (v : Fin n → ℝ) (i : Fin n) : |v i| ≤ maxAbs v := by
  refine le_foldr_max _ _ ?_
  exact List.mem_map.mpr ⟨v i, (List.mem_ofFn v (v i)).mpr ⟨i, rfl⟩, rfl⟩

/-- `maxAbs` is below `c` once `c` is non-negative and bounds every
component's absolute value. -/
theorem maxAbs_le {n : ℕ} (v : Fin n → ℝ) (c : ℝ) (hc : 0 ≤ c)
    (h : ∀ i, |v i| ≤ c) : maxAbs v ≤ c := by
  refine foldr_max_le _ _ hc ?_
  intro x hx
  rcases List.mem_map.mp hx with ⟨y, hy, rfl⟩
  rcases (List.mem_ofFn v y).mp hy with ⟨i, rfl⟩
  exact h i

/-- On a non-empty state space, a value below `maxAbs` is below some
component's absolute value. -/
theorem exists_abs_gt_of_lt_maxAbs {n : ℕ} (hn : 0 < n) (v : Fin n → ℝ) (c : ℝ)
    (h : c < maxAbs v) : ∃ i, c < |v i| := by
  by_cases hc : 0 ≤ c
  · by_contra hcon
    push_neg at hcon
    exact absurd (maxAbs_le v c hc hcon) (not_le.mpr h)
  · exact ⟨⟨0, hn⟩, lt_of_lt_of_le (not_le.mp hc) (abs_nonneg _)⟩

/-- The stopping pass of the `call_option` loop: its `error` is within
`epsilon` and every earlier pass's `error` exceeded `epsilon`. -/
theorem stopTime_spec {n : ℕ} (e : AssetPrices n) (zeta p_s epsilon : ℝ)
    (h : Terminates e zeta p_s epsilon) :
    errAt e zeta p_s (stopTime e zeta p_s epsilon h) ≤ epsilon ∧
      ∀ u, u < stopTime e zeta p_s epsilon h → epsilon < errAt e zeta p_s u := by
  unfold stopTime
  exact ⟨Nat.find_spec h, fun u hu => not_le.mp (Nat.find_min h hu)⟩

/-- The inverse of a `1 × 1` real matrix is entrywise reciprocal. -/
theorem inv_fin_one (A : Matrix (Fin 1) (Fin 1) ℝ) :
    A⁻¹ = Matrix.of fun _ _ => (A 0 0)⁻¹ := by
  rw [Matrix.inv_def, Matrix.det_fin_one, Matrix.adjugate_fin_one,
    Ring.inverse_eq_inv]
  ext i j
  fin_cases i
  fin_cases j
  simp

/-- Matrix-vector product over one state is scalar multiplication. -/
theorem mulVec_fin_one (A : Matrix (Fin 1) (Fin 1) ℝ) (v : Fin 1 → ℝ) :
    A.mulVec v 0 = A 0 0 * v 0 := by
  simp [Matrix.mulVec, Matrix.dotProduct]

/-- The growth-adjusted kernel `P_check` is entrywise non-negative for
non-negative `P` and positive `s`. -/
theorem P_check_nonneg {n : ℕ} (e : AssetPrices n) (hP : ∀ i j, 0 ≤ e.P i j)
    (hs : ∀ j, 0 < e.s j) : ∀ i j, 0 ≤ P_check e i j :=
  fun i j => mul_nonneg (hP i j) (Real.rpow_nonneg (hs j).le _)

/-- Multiplication by an entrywise non-negative matrix is monotone. -/
theorem mulVec_mono {n : ℕ} (B : Matrix (Fin n) (Fin n) ℝ)
    (hB : ∀ i j, 0 ≤ B i j) (v w : Fin n → ℝ) (hvw : ∀ j, v j ≤ w j) :
    ∀ i, B.mulVec v i ≤ B.mulVec w i := by
  intro i
  simp only [Matrix.mulVec, Matrix.dotProduct]
  exact Finset.sum_le_sum fun j _ => mul_le_mul_of_nonneg_left (hvw j) (hB i j)

/-- An entrywise non-negative matrix sends non-negative vectors to
non-negative vectors. -/
theorem mulVec_nonneg {n : ℕ} (B : Matrix (Fin n) (Fin n) ℝ)
    (hB : ∀ i j, 0 ≤ B i j) (v : Fin n → ℝ) (hv : ∀ j, 0 ≤ v j) :
    ∀ i, 0 ≤ B.mulVec v i := by
  intro i
  simp only [Matrix.mulVec, Matrix.dotProduct]
  exact Finset.sum_nonneg fun j _ => mul_nonneg (hB i j) (hv j)

/-- Every `call_option` iterate is componentwise non-negative when `P` is
non-negative, `s` positive and `beta ≥ 0`. -/
theorem wIter_nonneg {n : ℕ} (e : AssetPrices n) (hP : ∀ i j, 0 ≤ e.P i j)
    (hs : ∀ j, 0 < e.s j) (hb : 0 ≤ e.beta) (zeta p_s : ℝ) :
    ∀ t i, 0 ≤ wIter e zeta p_s t i := by
  intro t
  induction t with
  | zero => exact fun i => le_refl 0
  | succ t ih =>
    intro i
    refine le_trans ?_ (le_max_left _ _)
    exact mul_nonneg hb (mulVec_nonneg _ (P_check_nonneg e hP hs) _ ih i)

/-- Successive `call_option` iterates are componentwise non-decreasing when
`P` is non-negative, `s` positive and `beta ≥ 0`. -/
theorem wIter_mono {n : ℕ} (e : AssetPrices n) (hP : ∀ i j, 0 ≤ e.P i j)
    (hs : ∀ j, 0 < e.s j) (hb : 0 ≤ e.beta) (zeta p_s : ℝ) :
    ∀ t i, wIter e zeta p_s t i ≤ wIter e zeta p_s (t + 1) i := by
  intro t
  induction t with
  | zero => exact fun i => wIter_nonneg e hP hs hb zeta p_s 1 i
  | succ t ih =>
    intro i
    refine max_le_max ?_ (le_refl _)
    exact mul_le_mul_of_nonneg_left
      (mulVec_mono _ (P_check_nonneg e hP hs) _ _ ih i) hb

/-- Strict row-diagonal dominance: if `B` is entrywise non-negative with all
row sums below `1` and `(I - B) x = b` with `b` non-negative, then `x` is
non-negative. -/
theorem oneSub_mulVec_nonneg {n : ℕ} (B : Matrix (Fin n) (Fin n) ℝ)
    (hB : ∀ i j, 0 ≤ B i j) (hrow : ∀ i, ∑ j, B i j < 1) (x b : Fin n → ℝ)
    (hxb : (1 - B).mulVec x = b) (hb : ∀ i, 0 ≤ b i) : ∀ i, 0 ≤ x i := by
  by_contra hcon
  push_neg at hcon
  obtain ⟨i, hi⟩ := hcon
  obtain ⟨i0, -, hmin⟩ :=
    Finset.exists_min_image Finset.univ x ⟨i, Finset.mem_univ i⟩
  have hx0 : x i0 < 0 := lt_of_le_of_lt (hmin i (Finset.mem_univ i)) hi
  have heq : x i0 - ∑ j, B i0 j * x j = b i0 := by
    have hxb2 := hxb
    rw [Matrix.sub_mulVec, Matrix.one_mulVec] at hxb2
    have hfun := congrFun hxb2 i0
    simpa [Matrix.mulVec, Matrix.dotProduct] using hfun
  have h1 : (∑ j, B i0 j) * x i0 ≤ ∑ j, B i0 j * x j := by
    rw [Finset.sum_mul]
    exact Finset.sum_le_sum fun j _ =>
      mul_le_mul_of_nonneg_left (hmin j (Finset.mem_univ j)) (hB i0 j)
  have h2 : x i0 < (∑ j, B i0 j) * x i0 := by
    have hlt := mul_lt_mul_of_neg_right (hrow i0) hx0
    simpa using hlt
  have hfinal : x i0 < x i0 :=
    calc x i0 < (∑ j, B i0 j) * x i0 := h2
      _ ≤ ∑ j, B i0 j * x j := h1
      _ ≤ b i0 + ∑ j, B i0 j * x j := le_add_of_nonneg_left (hb i0)
      _ = x i0 := by linarith [heq]
  exact absurd hfinal (lt_irrefl _)

/-- Under the same row dominance, `I - B` is invertible. -/
theorem oneSub_det_isUnit {n : ℕ} (B : Matrix (Fin n) (Fin n) ℝ)
    (hB : ∀ i j, 0 ≤ B i j) (hrow : ∀ i, ∑ j, B i j < 1) :
    IsUnit (1 - B).det := by
  rw [isUnit_iff_ne_zero]
  intro hdet
  obtain ⟨v, hv0, hv⟩ := (Matrix.exists_mulVec_eq_zero_iff).mpr hdet
  have hpos : ∀ i, 0 ≤ v i :=
    oneSub_mulVec_nonneg B hB hrow v 0 hv fun i => le_refl 0
  have hvneg : (1 - B).mulVec (-v) = 0 := by
    rw [Matrix.mulVec_neg, hv, neg_zero]
  have hneg : ∀ i, 0 ≤ -v i :=
    oneSub_mulVec_nonneg B hB hrow (-v) 0 hvneg fun i => le_refl 0
  refine hv0 (funext fun i => le_antisymm ?_ (hpos i))
  simpa using hneg i

/-- In the `beta = 0` economy the consol price is identically zero. -/
theorem consol_eZero (zeta : ℝ) : consol_price eZero zeta = fun _ => (0 : ℝ) := by
  funext i
  simp [consol_price, eZero]

/-- In the `beta = 0` economy with strike `0`, every option iterate is the
zero vector. -/
theorem wIter_eZero (zeta : ℝ) : ∀ t, wIter eZero zeta 0 t = fun _ => (0 : ℝ) := by
  intro t
  induction t with
  | zero => rfl
  | succ t ih =>
    funext i
    simp [wIter, optionUpdate, ih, consol_eZero,
      Matrix.mulVec, Matrix.dotProduct]

/-- In the `beta = 0` economy with strike `0`, every loop pass reports a zero
`error`. -/
theorem errAt_eZero (zeta : ℝ) (t : ℕ) : errAt eZero zeta 0 t = 0 := by
  simp [errAt, wIter_eZero, maxAbs, List.ofFn_succ]

/-- The `call_option` loop of the `beta = 0` economy terminates even with the
zero tolerance. -/
theorem eZero_term_zero : Terminates eZero 1 0 0 :=
  ⟨0, le_of_eq (errAt_eZero 1 0)⟩

/-- The `call_option` loop of the `beta = 0` economy terminates with
tolerance `1`. -/
theorem eZero_term_one : Terminates eZero 1 0 1 :=
  ⟨0, by rw [errAt_eZero]; norm_num⟩

/-- The tree kernel of `eUnit` is the all-ones `1 × 1` matrix. -/
theorem P_tilde_eUnit : P_tilde eUnit = Matrix.of fun _ _ => 1 := by
  funext i j
  simp [P_tilde, eUnit, Real.one_rpow]

/-- The linear system solved by `tree_price` on `eUnit` is nonsingular. -/
theorem isUnit_det_eUnit : IsUnit (1 - eUnit.beta • P_tilde eUnit).det := by
  rw [Matrix.det_fin_one, P_tilde_eUnit]
  refine isUnit_iff_ne_zero.mpr ?_
  norm_num [Matrix.sub_apply, Matrix.smul_apply, Matrix.one_apply_eq, eUnit]

/-- The tree kernel of `eNeg` is the constant `4` matrix. -/
theorem P_tilde_eNeg : P_tilde eNeg = Matrix.of fun _ _ => 4 := by
  funext i j
  norm_num [P_tilde, eNeg, Real.rpow_one]

/-- `tree_price` on the economy `eNeg` returns a negative price. -/
theorem tree_price_eNeg : tree_price eNeg 0 = -2 := by
  have hA : (1 - eNeg.beta • P_tilde eNeg) = Matrix.of fun _ _ => (-1 : ℝ) := by
    funext i j
    fin_cases i
    fin_cases j
    rw [P_tilde_eNeg]
    norm_num [Matrix.sub_apply, Matrix.smul_apply, Matrix.one_apply_eq, eNeg]
  simp only [tree_price, npSolve, hA, inv_fin_one, P_tilde_eNeg,
    Pi.smul_apply, smul_eq_mul]
  rw [mulVec_fin_one, mulVec_fin_one]
  norm_num [Matrix.of_apply, eNeg]

/-- C2: `tree_price()` returns `beta * (I - beta * P_tilde)⁻¹ * (P_tilde * 1)`
with `P_tilde[i,j] = P[i,j] * s[j]^(1-gamma)`, and — whenever the solved
system is nonsingular — this vector satisfies the fixed-point equation
`v = beta * P_tilde * (1 + v)` in every component. -/
theorem C2_tree_price_fixed_point {n : ℕ} (e : AssetPrices n)
    (h : IsUnit (1 - e.beta • P_tilde e).det) :
    tree_price e =
      e.beta • ((1 - e.beta • Matrix.of fun i j =>
          e.P i j * e.s j ^ (1 - e.gamma))⁻¹).mulVec
        ((Matrix.of fun i j => e.P i j * e.s j ^ (1 - e.gamma)).mulVec
          fun _ => 1) ∧
    ∀ i, tree_price e i =
      e.beta * ∑ j, e.P i j * e.s j ^ (1 - e.gamma) * (1 + tree_price e j) := by
  refine ⟨rfl, fun i => ?_⟩
  show tree_price e i = e.beta * ∑ j, P_tilde e i j * (1 + tree_price e j)
  have hAu : (1 - e.beta • P_tilde e).mulVec
      (npSolve (1 - e.beta • P_tilde e) ((P_tilde e).mulVec fun _ => 1)) =
      (P_tilde e).mulVec fun _ => 1 := by
    rw [npSolve, Matrix.mulVec_mulVec, Matrix.mul_nonsing_inv _ h,
      Matrix.one_mulVec]
  rw [Matrix.sub_mulVec, Matrix.one_mulVec, Matrix.smul_mulVec_assoc] at hAu
  have hrec := congrFun hAu i
  simp only [Pi.sub_apply, Pi.smul_apply, smul_eq_mul] at hrec
  have htv : tree_price e i =
      e.beta * npSolve (1 - e.beta • P_tilde e) ((P_tilde e).mulVec fun _ => 1) i :=
    rfl
  have hsum : ∑ j, P_tilde e i j * (1 + tree_price e j) =
      (P_tilde e).mulVec (fun _ => 1) i +
        e.beta * (P_tilde e).mulVec
          (npSolve (1 - e.beta • P_tilde e) ((P_tilde e).mulVec fun _ => 1)) i := by
    simp only [Matrix.mulVec, Matrix.dotProduct, Finset.mul_sum,
      ← Finset.sum_add_distrib]
    refine Finset.sum_congr rfl fun j _ => ?_
    have htj : tree_price e j =
        e.beta * npSolve (1 - e.beta • P_tilde e) ((P_tilde e).mulVec fun _ => 1) j :=
      rfl
    rw [htj]
    ring
  rw [hsum, htv, ← hrec]
  ring

/-- Witness for C2: the one-state economy `eUnit` has a nonsingular system
and its tree price satisfies the fixed-point equation. -/
theorem C2_tree_price_fixed_point_witness :
    IsUnit (1 - eUnit.beta • P_tilde eUnit).det ∧
    ∀ i, tree_price eUnit i =
      eUnit.beta * ∑ j, eUnit.P i j * eUnit.s j ^ (1 - eUnit.gamma) *
        (1 + tree_price eUnit j) :=
  ⟨isUnit_det_eUnit, (C2_tree_price_fixed_point eUnit isUnit_det_eUnit).2⟩

/-- C3: `consol_price(zeta)` returns
`beta * (I - beta * P_check)⁻¹ * (P_check * (zeta * 1))` with
`P_check[i,j] = P[i,j] * s[j]^(-gamma)`: the consol kernel adjusts by the
exponent `-gamma` while the tree kernel of `tree_price` uses `1 - gamma`. -/
theorem C3_consol_price_formula {n : ℕ} (e : AssetPrices n) (zeta : ℝ) :
    consol_price e zeta =
      e.beta • ((1 - e.beta • Matrix.of fun i j =>
          e.P i j * e.s j ^ (-e.gamma))⁻¹).mulVec
        ((Matrix.of fun i j => e.P i j * e.s j ^ (-e.gamma)).mulVec
          fun _ => zeta * 1) ∧
    (∀ i j, P_check e i j = e.P i j * e.s j ^ (-e.gamma)) ∧
    (∀ i j, P_tilde e i j = e.P i j * e.s j ^ (1 - e.gamma)) :=
  ⟨rfl, fun _ _ => rfl, fun _ _ => rfl⟩

/-- C4 counterexample: a `1 × 1` transition matrix together with a
length-`2` growth vector (a dimension mismatch, `2 ≠ 1`) does not make the
constructor fail: `__init__` returns an initialized object. -/
theorem C4_counterexample :
    (2 : ℕ) ≠ 1 ∧
    initAP (1 / 2 : ℝ) (Matrix.of fun _ _ => (1 : ℝ) : Matrix (Fin 1) (Fin 1) ℝ)
      (fun _ : Fin 2 => (1 : ℝ)) 0 ≠ none := by
  refine ⟨by decide, ?_⟩
  simp [initAP]

/-- C4 amended: the constructor performs no dimension validation at all — for
every input, matched or mismatched, it returns successfully, storing the four
parameters verbatim and deriving `n` from `P`'s dimension. -/
theorem C4_init_never_fails {n m : ℕ} (beta : ℝ) (P : Matrix (Fin n) (Fin n) ℝ)
    (s : Fin m → ℝ) (gamma : ℝ) :
    initAP beta P s gamma = some ⟨beta, P, s, gamma, n⟩ :=
  rfl

/-- C6: the consol price is homogeneous of degree one in the coupon: doubling
`zeta` exactly doubles every component of `consol_price(zeta)`. -/
theorem C6_consol_price_linear {n : ℕ} (e : AssetPrices n) (zeta : ℝ) :
    consol_price e (2 * zeta) = fun i => 2 * consol_price e zeta i := by
  funext i
  simp only [consol_price, npSolve]
  have h2 : (fun _ : Fin n => 2 * zeta * 1) =
      (2 : ℝ) • fun _ : Fin n => zeta * 1 := by
    funext j
    simp only [Pi.smul_apply, smul_eq_mul]
    ring
  rw [h2, Matrix.mulVec_smul, Matrix.mulVec_smul]
  simp only [Pi.smul_apply, smul_eq_mul]
  ring

/-- C7: with entrywise non-negative `P`, strictly positive `s` and
`beta ≥ 0`, the `call_option` iterates start at the zero vector and are
componentwise non-decreasing from each pass to the next. -/
theorem C7_iterates_monotone {n : ℕ} (e : AssetPrices n)
    (hP : ∀ i j, 0 ≤ e.P i j) (hs : ∀ j, 0 < e.s j) (hb : 0 ≤ e.beta)
    (zeta p_s : ℝ) :
    (∀ i, wIter e zeta p_s 0 i = 0) ∧
    ∀ t i, wIter e zeta p_s t i ≤ wIter e zeta p_s (t + 1) i :=
  ⟨fun _ => rfl, wIter_mono e hP hs hb zeta p_s⟩

/-- Witness for C7: the hypotheses hold for the one-state economy `eUnit`,
whose iterates are therefore monotone. -/
theorem C7_iterates_monotone_witness :
    (∀ i j, 0 ≤ eUnit.P i j) ∧ (∀ j, 0 < eUnit.s j) ∧ 0 ≤ eUnit.beta ∧
    ∀ t i, wIter eUnit 1 0 t i ≤ wIter eUnit 1 0 (t + 1) i := by
  have hP : ∀ i j, 0 ≤ eUnit.P i j := fun i j => by norm_num [eUnit]
  have hs : ∀ j, 0 < eUnit.s j := fun j => by norm_num [eUnit]
  have hb : (0 : ℝ) ≤ eUnit.beta := by norm_num [eUnit]
  exact ⟨hP, hs, hb, (C7_iterates_monotone eUnit hP hs hb 1 0).2⟩

/-- C8 counterexample: the economy `eNeg` has an entrywise non-negative,
row-stochastic `P`, non-negative growth multipliers, a discount factor in
`(0, 1)` and `gamma ≥ 0`, yet `tree_price` returns a negative entry — the
claim fails without a condition keeping `beta * P_tilde` contractive. -/
theorem C8_counterexample :
    (∀ i j, 0 ≤ eNeg.P i j) ∧ (∀ i, ∑ j, eNeg.P i j = 1) ∧
    (∀ j, 0 ≤ eNeg.s j) ∧ 0 < eNeg.beta ∧ eNeg.beta < 1 ∧ 0 ≤ eNeg.gamma ∧
    tree_price eNeg 0 < 0 := by
  refine ⟨fun i j => by norm_num [eNeg], fun i => by simp [eNeg],
    fun j => by norm_num [eNeg], by norm_num [eNeg], by norm_num [eNeg],
    by norm_num [eNeg], ?_⟩
  rw [tree_price_eNeg]
  norm_num

/-- C8 amended: for entrywise non-negative `P`, non-negative `s`,
`beta ≥ 0` and every row sum of `beta * P_tilde` below `1` (which holds for a
row-stochastic `P` exactly when the discounted growth adjustment is
contractive), every entry of `tree_price()` is non-negative. -/
theorem C8_tree_price_nonneg {n : ℕ} (e : AssetPrices n)
    (hP : ∀ i j, 0 ≤ e.P i j) (hs : ∀ j, 0 ≤ e.s j) (hb : 0 ≤ e.beta)
    (hrow : ∀ i, ∑ j, e.beta * (e.P i j * e.s j ^ (1 - e.gamma)) < 1) :
    ∀ i, 0 ≤ tree_price e i := by
  have hBnn : ∀ i j, 0 ≤ (e.beta • P_tilde e) i j := by
    intro i j
    rw [Matrix.smul_apply, smul_eq_mul]
    exact mul_nonneg hb (mul_nonneg (hP i j) (Real.rpow_nonneg (hs j) _))
  have hrow2 : ∀ i, ∑ j, (e.beta • P_tilde e) i j < 1 := by
    intro i
    simpa [Matrix.smul_apply, smul_eq_mul, P_tilde] using hrow i
  have hdet : IsUnit (1 - e.beta • P_tilde e).det :=
    oneSub_det_isUnit _ hBnn hrow2
  have hbvec : ∀ i, 0 ≤ (P_tilde e).mulVec (fun _ => 1) i := by
    refine mulVec_nonneg _ ?_ _ fun j => zero_le_one
    exact fun i j => mul_nonneg (hP i j) (Real.rpow_nonneg (hs j) _)
  have hsolve : (1 - e.beta • P_tilde e).mulVec
      (npSolve (1 - e.beta • P_tilde e) ((P_tilde e).mulVec fun _ => 1)) =
      (P_tilde e).mulVec fun _ => 1 := by
    rw [npSolve, Matrix.mulVec_mulVec, Matrix.mul_nonsing_inv _ hdet,
      Matrix.one_mulVec]
  have hx : ∀ i, 0 ≤ npSolve (1 - e.beta • P_tilde e)
      ((P_tilde e).mulVec fun _ => 1) i :=
    oneSub_mulVec_nonneg _ hBnn hrow2 _ _ hsolve hbvec
  intro i
  have htv : tree_price e i =
      e.beta * npSolve (1 - e.beta • P_tilde e) ((P_tilde e).mulVec fun _ => 1) i :=
    rfl
  rw [htv]
  exact mul_nonneg hb (hx i)

/-- Witness for C8 (amended): the economy `eUnit` satisfies the row-sum
condition (`beta * P_tilde` has row sums `1/2`), so its tree price is
entrywise non-negative. -/
theorem C8_tree_price_nonneg_witness :
    (∀ i j, 0 ≤ eUnit.P i j) ∧ (∀ j, 0 ≤ eUnit.s j) ∧ 0 ≤ eUnit.beta ∧
    (∀ i, ∑ j, eUnit.beta * (eUnit.P i j * eUnit.s j ^ (1 - eUnit.gamma)) < 1) ∧
    ∀ i, 0 ≤ tree_price eUnit i := by
  have hP : ∀ i j, 0 ≤ eUnit.P i j := fun i j => by norm_num [eUnit]
  have hs : ∀ j, (0 : ℝ) ≤ eUnit.s j := fun j => by norm_num [eUnit]
  have hb : (0 : ℝ) ≤ eUnit.beta := by norm_num [eUnit]
  have hrow : ∀ i, ∑ j, eUnit.beta *
      (eUnit.P i j * eUnit.s j ^ (1 - eUnit.gamma)) < 1 := by
    intro i
    simp [eUnit, Real.one_rpow]
    norm_num
  exact ⟨hP, hs, hb, hrow, C8_tree_price_nonneg eUnit hP hs hb hrow⟩

/-- C9 counterexample: the claim asserts non-termination for every
`epsilon ≤ 0`, but at `epsilon = 0` the loop can terminate: in the economy
`eZero` (coupon `1`, strike `0`) the first pass already produces a zero
`error`. -/
theorem C9_counterexample : (0 : ℝ) ≤ 0 ∧ Terminates eZero 1 0 0 :=
  ⟨le_refl 0, eZero_term_zero⟩

/-- C9 amended: for a strictly negative tolerance the loop never terminates
(on a non-empty state space the reported `error`, a maximum of absolute
values, is always `≥ 0 > epsilon`). -/
theorem C9_no_termination {n : ℕ} (e : AssetPrices n) (zeta p_s epsilon : ℝ)
    (_hn : 0 < n) (he : epsilon < 0) : ¬Terminates e zeta p_s epsilon := by
  rintro ⟨t, ht⟩
  exact absurd (le_trans (maxAbs_nonneg _) ht) (not_le.mpr he)

/-- Witness for C9 (amended): the loop of `eZero` never terminates with
tolerance `-1`. -/
theorem C9_no_termination_witness :
    0 < 1 ∧ (-1 : ℝ) < 0 ∧ ¬Terminates eZero 1 0 (-1) :=
  ⟨Nat.zero_lt_one, by norm_num,
    C9_no_termination eZero 1 0 (-1) Nat.zero_lt_one (by norm_num)⟩

/-- C10: whenever the loop terminates (and `P` is entrywise non-negative,
`s` strictly positive, `beta ≥ 0`), the returned option price dominates both
the immediate-exercise value `consol_price(zeta) - p_s` and `0` in every
state. -/
theorem C10_price_dominates_exercise {n : ℕ} (e : AssetPrices n)
    (hP : ∀ i j, 0 ≤ e.P i j) (hs : ∀ j, 0 < e.s j) (hb : 0 ≤ e.beta)
    (zeta p_s epsilon : ℝ) (h : Terminates e zeta p_s epsilon) :
    ∀ i, max (consol_price e zeta i - p_s) 0 ≤
      call_option_price e zeta p_s epsilon h i := by
  intro i
  have hcp : call_option_price e zeta p_s epsilon h i =
      max (e.beta * (P_check e).mulVec
          (wIter e zeta p_s (stopTime e zeta p_s epsilon h)) i)
        (consol_price e zeta i - p_s) :=
    rfl
  rw [hcp]
  refine max_le (le_max_right _ _) (le_max_of_le_left ?_)
  exact mul_nonneg hb (mulVec_nonneg _ (P_check_nonneg e hP hs) _
    (wIter_nonneg e hP hs hb zeta p_s _) i)

/-- Witness for C10: in the economy `eZero` the loop terminates with
tolerance `1` and the returned price dominates the exercise value. -/
theorem C10_price_dominates_exercise_witness :
    (∀ i j, 0 ≤ eZero.P i j) ∧ (∀ j, 0 < eZero.s j) ∧ 0 ≤ eZero.beta ∧
    ∀ i, max (consol_price eZero 1 i - 0) 0 ≤
      call_option_price eZero 1 0 1 eZero_term_one i := by
  have hP : ∀ i j, 0 ≤ eZero.P i j := fun i j => by norm_num [eZero]
  have hs : ∀ j, (0 : ℝ) < eZero.s j := fun j => by norm_num [eZero]
  have hb : (0 : ℝ) ≤ eZero.beta := by norm_num [eZero]
  exact ⟨hP, hs, hb,
    C10_price_dominates_exercise eZero hP hs hb 1 0 1 eZero_term_one⟩

/-- C1: `call_option(zeta, p_s, T, epsilon)` iterates `w_0 = 0`,
`w_{t+1}[i] = max(beta * (P_check * w_t)[i], p_bar[i] - p_s)` with
`P_check[i,j] = P[i,j] * s[j]^(-gamma)` and `p_bar` the internal
`consol_price(zeta)`; the loop stops at the first pass whose maximum absolute
componentwise change is within `epsilon`, and the first component of the
return value is the iterate that pass produced. -/
theorem C1_call_option_value_iteration {n : ℕ} (e : AssetPrices n)
    (zeta p_s epsilon : ℝ) (hn : 0 < n) (h : Terminates e zeta p_s epsilon) :
    (∀ i, wIter e zeta p_s 0 i = 0) ∧
    (∀ t i, wIter e zeta p_s (t + 1) i =
      max (e.beta * ∑ j, e.P i j * e.s j ^ (-e.gamma) * wIter e zeta p_s t j)
        (consol_price e zeta i - p_s)) ∧
    (∀ i, |wIter e zeta p_s (stopTime e zeta p_s epsilon h) i -
        wIter e zeta p_s (stopTime e zeta p_s epsilon h + 1) i| ≤ epsilon) ∧
    (∀ u, u < stopTime e zeta p_s epsilon h →
      ∃ i, epsilon < |wIter e zeta p_s u i - wIter e zeta p_s (u + 1) i|) ∧
    call_option_price e zeta p_s epsilon h =
      wIter e zeta p_s (stopTime e zeta p_s epsilon h + 1) := by
  obtain ⟨hstop, hless⟩ := stopTime_spec e zeta p_s epsilon h
  refine ⟨fun _ => rfl, ?_, ?_, ?_, rfl⟩
  · intro t i
    show max (e.beta * (P_check e).mulVec (wIter e zeta p_s t) i)
        (consol_price e zeta i - p_s) = _
    have hmv : (P_check e).mulVec (wIter e zeta p_s t) i =
        ∑ j, e.P i j * e.s j ^ (-e.gamma) * wIter e zeta p_s t j := by
      simp [Matrix.mulVec, Matrix.dotProduct, P_check]
    rw [hmv]
  · intro i
    have hst : maxAbs (fun i2 => wIter e zeta p_s (stopTime e zeta p_s epsilon h) i2 -
        wIter e zeta p_s (stopTime e zeta p_s epsilon h + 1) i2) ≤ epsilon := hstop
    exact le_trans (abs_le_maxAbs (fun i2 =>
      wIter e zeta p_s (stopTime e zeta p_s epsilon h) i2 -
        wIter e zeta p_s (stopTime e zeta p_s epsilon h + 1) i2) i) hst
  · intro u hu
    have hu2 : epsilon < maxAbs (fun i2 => wIter e zeta p_s u i2 -
        wIter e zeta p_s (u + 1) i2) := hless u hu
    exact exists_abs_gt_of_lt_maxAbs hn _ epsilon hu2

/-- Witness for C1: the loop of `eZero` terminates with tolerance `1` on a
one-state economy, and the returned price is the final iterate. -/
theorem C1_call_option_value_iteration_witness :
    0 < 1 ∧ Terminates eZero 1 0 1 ∧
    call_option_price eZero 1 0 1 eZero_term_one =
      wIter eZero 1 0 (stopTime eZero 1 0 1 eZero_term_one + 1) :=
  ⟨Nat.zero_lt_one, eZero_term_one,
    (C1_call_option_value_iteration eZero 1 0 1 Nat.zero_lt_one
      eZero_term_one).2.2.2.2⟩

/-- C5: the snapshot dict returned by `call_option` has key set exactly the
members of `T` below the number of iterations (`stopTime + 1`); each present
key `t` maps to the iterate as it stood before pass `t`'s update; key `0`
always maps to the zero vector; and keys of `T` at or beyond the convergence
time — including negative ones — are silently absent. -/
theorem C5_snapshot_semantics {n : ℕ} (e : AssetPrices n)
    (zeta p_s epsilon : ℝ) (T : List ℤ) (h : Terminates e zeta p_s epsilon) :
    (∀ k : ℤ, (call_option_snaps e zeta p_s T epsilon h k).isSome = true ↔
      k ∈ T ∧ 0 ≤ k ∧ k < (stopTime e zeta p_s epsilon h : ℤ) + 1) ∧
    (∀ t : ℕ, (t : ℤ) ∈ T → t ≤ stopTime e zeta p_s epsilon h →
      call_option_snaps e zeta p_s T epsilon h (t : ℤ) =
        some (wIter e zeta p_s t)) ∧
    ((0 : ℤ) ∈ T →
      call_option_snaps e zeta p_s T epsilon h 0 = some fun _ => 0) ∧
    (∀ k : ℤ, k < 0 → call_option_snaps e zeta p_s T epsilon h k = none) := by
  have hsnap : ∀ k : ℤ, call_option_snaps e zeta p_s T epsilon h k =
      if k ∈ T ∧ 0 ≤ k ∧ k.toNat ≤ stopTime e zeta p_s epsilon h then
        some (wIter e zeta p_s k.toNat)
      else none := by
    intro k
    unfold call_option_snaps
    rfl
  have hmem : ∀ t : ℕ, (t : ℤ) ∈ T → t ≤ stopTime e zeta p_s epsilon h →
      call_option_snaps e zeta p_s T epsilon h (t : ℤ) =
        some (wIter e zeta p_s t) := by
    intro t ht hle
    rw [hsnap]
    rw [if_pos ⟨ht, Int.natCast_nonneg t, by simpa using hle⟩]
    simp
  refine ⟨?_, hmem, ?_, ?_⟩
  · intro k
    rw [hsnap]
    by_cases hc : k ∈ T ∧ 0 ≤ k ∧ k.toNat ≤ stopTime e zeta p_s epsilon h
    · rw [if_pos hc]
      simp only [Option.isSome_some, true_iff]
      exact ⟨hc.1, hc.2.1, Int.lt_add_one_iff.mpr (Int.toNat_le.mp hc.2.2)⟩
    · rw [if_neg hc]
      constructor
      · intro hcon
        simp at hcon
      · intro hcon
        exact absurd ⟨hcon.1, hcon.2.1,
          Int.toNat_le.mpr (Int.lt_add_one_iff.mp hcon.2.2)⟩ hc
  · intro h0
    have h00 := hmem 0 (by simpa using h0) (Nat.zero_le _)
    simpa using h00
  · intro k hk
    rw [hsnap]
    rw [if_neg]
    rintro ⟨-, h0, -⟩
    exact absurd h0 (not_le.mpr hk)

/-- Witness for C5: requesting the snapshot list `T = [0]` on the `eZero`
economy stores the all-zero vector under key `0`. -/
theorem C5_snapshot_semantics_witness :
    Terminates eZero 1 0 1 ∧
    call_option_snaps eZero 1 0 [0] 1 eZero_term_one 0 = some fun _ => 0 :=
  ⟨eZero_term_one,
    (C5_snapshot_semantics eZero 1 0 1 [0] eZero_term_one).2.2.1
      (List.mem_singleton.mpr rfl)⟩
